import Mathlib

/-!
Verification of the parallel successive-halving scheduler
(`smac/intensification/parallel_successive_halving.py`).

The development shallowly embeds the two methods of
`ParallelSuccessiveHalving` that the claims are about:

* `_get_intensifier_ranking`, which ranks a race instance by
  `(stage, len(run_tracker))` after asserting that the instance is a
  `SuccessiveHalving`; and
* `_add_new_instance`, which grows the pool
  `self.intensifier_instances` (a Python dict, insertion ordered) with a
  fresh `SuccessiveHalving` keyed and identified by the current pool
  size, as long as the pool is smaller than `num_workers`.

The `SuccessiveHalving` class itself and the parent scheduler
(`ParallelScheduler`) live outside the sources at hand, so their parts
are modelled from the spec where a claim needs them; each such
definition carries a doc comment starting with `Modelled from the
spec:`.
-/

namespace ParallelSH

/-- Modelled from the spec: the scheduler-observable state of one
`SuccessiveHalving` race instance (class not under src/).  It carries a
stable `identifier`, an optional `stage` (newly created instances have
no `stage` attribute, hence `Option`), and `run_tracker`, the list of
job records the instance is currently tracking (only its length matters
to the scheduler, entries are abstracted to `Nat`). -/
structure SHState where
  identifier : Nat
  stage? : Option Nat
  run_tracker : List Nat
deriving DecidableEq, Repr

/-- An `AbstractRacer` argument to `_get_intensifier_ranking`: either a
`SuccessiveHalving` instance or some other racer kind. -/
inductive AbstractRacer where
  | sh (state : SHState)
  | other
deriving DecidableEq, Repr

/-- Embedding of `ParallelSuccessiveHalving._get_intensifier_ranking`.
The Python `assert isinstance(intensifier, SuccessiveHalving)` failure
is rendered as `none`; otherwise the method returns
`(stage, len(intensifier.run_tracker))` where `stage` defaults to `0`
when the (newly created) instance has no `stage` attribute. -/
def get_intensifier_ranking : AbstractRacer → Option (Nat × Nat)
  | AbstractRacer.other => none
  | AbstractRacer.sh s =>
    let stage : Nat :=
      match s.stage? with
      | none => 0
      | some v => v
    some (stage, s.run_tracker.length)

/-- The ranking tuple of a `SuccessiveHalving` instance, as computed by
`_get_intensifier_ranking` on the non-asserting path. -/
def rankOf (s : SHState) : Nat × Nat :=
  (s.stage?.getD 0, s.run_tracker.length)

/-- The pool `self.intensifier_instances`: a Python dict from `int` to
`SuccessiveHalving`, embedded as an insertion-ordered association
list. -/
abbrev Pool := List (Nat × SHState)

/-- Python dict assignment `d[k] = v`: overwrite in place when the key
is present, append at the end otherwise. -/
def dictInsert (d : Pool) (k : Nat) (v : SHState) : Pool :=
  if d.any (fun p => p.1 == k) then
    d.map (fun p => if p.1 == k then (k, v) else p)
  else
    d ++ [(k, v)]

/-- The scheduler state relevant to the claims: the pool of
successive-halving instances.  The constructor-forwarded configuration
(stats, rng, budgets, ...) does not influence any claimed behaviour and
is not represented. -/
structure SchedulerState where
  intensifier_instances : Pool
deriving DecidableEq, Repr

/-- Modelled from the spec: a freshly constructed `SuccessiveHalving`
(class not under src/) with the given `identifier`; it has not issued a
job, so it has no `stage` attribute and an empty `run_tracker`. -/
def freshSH (id : Nat) : SHState :=
  { identifier := id, stage? := none, run_tracker := [] }

/-- Embedding of `ParallelSuccessiveHalving._add_new_instance`: when
`len(self.intensifier_instances) >= num_workers` it returns `False`
leaving the state alone; otherwise it stores a fresh
`SuccessiveHalving` with `identifier = len(self.intensifier_instances)`
under that same key and returns `True`. -/
def add_new_instance (s : SchedulerState) (num_workers : Nat) :
    Bool × SchedulerState :=
  if s.intensifier_instances.length ≥ num_workers then
    (false, s)
  else
    (true,
      { intensifier_instances :=
          dictInsert s.intensifier_instances
            s.intensifier_instances.length
            (freshSH s.intensifier_instances.length) })

/-- Modelled from the spec: the scheduler starts with an empty pool. -/
def initialScheduler : SchedulerState :=
  { intensifier_instances := [] }

/-- Run a sequence of `_add_new_instance` calls (each with its
`num_workers` argument) from the initial scheduler state. -/
def runCalls (ws : List Nat) : SchedulerState :=
  ws.foldl (fun s nw => (add_new_instance s nw).2) initialScheduler

/-- The identifiers currently used as keys of the pool. -/
def poolKeys (s : SchedulerState) : List Nat :=
  s.intensifier_instances.map Prod.fst

/-- The pool is well formed when its keys are exactly
`0, 1, ..., size - 1` in creation order. -/
def WellFormed (s : SchedulerState) : Prop :=
  poolKeys s = List.range s.intensifier_instances.length

lemma wellFormed_initial : WellFormed initialScheduler := rfl

lemma any_key_eq_length_eq_false (s : SchedulerState) (h : WellFormed s) :
    s.intensifier_instances.any
      (fun p => p.1 == s.intensifier_instances.length) = false := by
  rw [List.any_eq_false]
  intro p hp
  have hmem : p.1 ∈ poolKeys s := List.mem_map_of_mem Prod.fst hp
  rw [h, List.mem_range] at hmem
  simp only [beq_iff_eq]
  omega

lemma add_new_instance_pool_eq (s : SchedulerState) (num_workers : Nat)
    (h : WellFormed s)
    (hlt : s.intensifier_instances.length < num_workers) :
    (add_new_instance s num_workers).2.intensifier_instances =
      s.intensifier_instances ++
        [(s.intensifier_instances.length,
          freshSH s.intensifier_instances.length)] := by
  rw [add_new_instance, if_neg (by omega)]
  simp only
  rw [dictInsert, if_neg]
  rw [any_key_eq_length_eq_false s h]
  simp

lemma wellFormed_add_new_instance (s : SchedulerState) (num_workers : Nat)
    (h : WellFormed s) :
    WellFormed (add_new_instance s num_workers).2 := by
  by_cases hge : s.intensifier_instances.length ≥ num_workers
  · rw [add_new_instance, if_pos hge]
    exact h
  · push_neg at hge
    have hpool := add_new_instance_pool_eq s num_workers h hge
    unfold WellFormed poolKeys at h ⊢
    rw [hpool]
    simp [List.range_succ, h]

lemma wellFormed_runCalls (ws : List Nat) : WellFormed (runCalls ws) := by
  suffices hgen : ∀ (l : List Nat) (s : SchedulerState), WellFormed s →
      WellFormed (l.foldl (fun s nw => (add_new_instance s nw).2) s) by
    exact hgen ws initialScheduler wellFormed_initial
  intro l
  induction l with
  | nil => intro s hs; exact hs
  | cons nw rest ih =>
    intro s hs
    exact ih _ (wellFormed_add_new_instance s nw hs)

/-- **C1.** `_add_new_instance(num_workers)` returns `True` exactly when
the current pool size is strictly below `num_workers`; when it returns
`True` exactly one fresh `SuccessiveHalving` has been appended to the
pool, and when it returns `False` the scheduler state is unchanged. -/
theorem add_new_instance_spec (s : SchedulerState) (num_workers : Nat)
    (h : WellFormed s) :
    ((add_new_instance s num_workers).1 = true ↔
      s.intensifier_instances.length < num_workers) ∧
    ((add_new_instance s num_workers).1 = true →
      (add_new_instance s num_workers).2.intensifier_instances =
        s.intensifier_instances ++
          [(s.intensifier_instances.length,
            freshSH s.intensifier_instances.length)]) ∧
    ((add_new_instance s num_workers).1 = false →
      (add_new_instance s num_workers).2 = s) := by
  by_cases hge : s.intensifier_instances.length ≥ num_workers
  · refine ⟨?_, ?_, ?_⟩
    · rw [add_new_instance, if_pos hge]
      simp
      omega
    · rw [add_new_instance, if_pos hge]
      simp
    · intro _
      rw [add_new_instance, if_pos hge]
  · push_neg at hge
    refine ⟨?_, ?_, ?_⟩
    · rw [add_new_instance, if_neg (by omega)]
      simpa using hge
    · intro _
      exact add_new_instance_pool_eq s num_workers h hge
    · rw [add_new_instance, if_neg (by omega)]
      simp

theorem add_new_instance_spec_witness :
    ((add_new_instance initialScheduler 2).1 = true ↔
      initialScheduler.intensifier_instances.length < 2) ∧
    ((add_new_instance initialScheduler 2).1 = true →
      (add_new_instance initialScheduler 2).2.intensifier_instances =
        initialScheduler.intensifier_instances ++
          [(initialScheduler.intensifier_instances.length,
            freshSH initialScheduler.intensifier_instances.length)]) ∧
    ((add_new_instance initialScheduler 2).1 = false →
      (add_new_instance initialScheduler 2).2 = initialScheduler) :=
  add_new_instance_spec initialScheduler 2 wellFormed_initial

/-- **C2.** When `_add_new_instance` adds an instance, the new instance
carries `identifier` equal to the pool size at the moment of creation
and is stored in the pool under that same key, at the end of the
insertion order. -/
theorem add_new_instance_identifier (s : SchedulerState) (num_workers : Nat)
    (h : WellFormed s)
    (hadded : (add_new_instance s num_workers).1 = true) :
    (add_new_instance s num_workers).2.intensifier_instances =
      s.intensifier_instances ++
        [(s.intensifier_instances.length,
          freshSH s.intensifier_instances.length)] ∧
    (freshSH s.intensifier_instances.length).identifier =
      s.intensifier_instances.length := by
  refine ⟨?_, rfl⟩
  by_cases hge : s.intensifier_instances.length ≥ num_workers
  · rw [add_new_instance, if_pos hge] at hadded
    simp at hadded
  · push_neg at hge
    exact add_new_instance_pool_eq s num_workers h hge

theorem add_new_instance_identifier_witness :
    (add_new_instance initialScheduler 1).2.intensifier_instances =
      initialScheduler.intensifier_instances ++
        [(initialScheduler.intensifier_instances.length,
          freshSH initialScheduler.intensifier_instances.length)] ∧
    (freshSH initialScheduler.intensifier_instances.length).identifier =
      initialScheduler.intensifier_instances.length :=
  add_new_instance_identifier initialScheduler 1 wellFormed_initial rfl

lemma runCalls_append_single (ws : List Nat) (nw : Nat) :
    runCalls (ws ++ [nw]) = (add_new_instance (runCalls ws) nw).2 := by
  unfold runCalls
  rw [List.foldl_append]
  rfl

lemma length_le_dictInsert (d : Pool) (k : Nat) (v : SHState) :
    d.length ≤ (dictInsert d k v).length := by
  unfold dictInsert
  by_cases h : d.any (fun p => p.1 == k)
  · rw [if_pos h, List.length_map]
  · rw [if_neg h, List.length_append]
    omega

lemma dictInsert_length_le (d : Pool) (k : Nat) (v : SHState) :
    (dictInsert d k v).length ≤ d.length + 1 := by
  unfold dictInsert
  by_cases h : d.any (fun p => p.1 == k)
  · rw [if_pos h, List.length_map]
    omega
  · rw [if_neg h, List.length_append]
    simp

lemma length_le_add_new_instance (s : SchedulerState) (num_workers : Nat) :
    s.intensifier_instances.length ≤
      (add_new_instance s num_workers).2.intensifier_instances.length := by
  unfold add_new_instance
  by_cases h : s.intensifier_instances.length ≥ num_workers
  · rw [if_pos h]
  · rw [if_neg h]
    exact length_le_dictInsert _ _ _

lemma add_new_instance_length_le (s : SchedulerState) (num_workers : Nat)
    (h : s.intensifier_instances.length ≤ num_workers) :
    (add_new_instance s num_workers).2.intensifier_instances.length ≤
      num_workers := by
  unfold add_new_instance
  by_cases hge : s.intensifier_instances.length ≥ num_workers
  · rw [if_pos hge]
    exact h
  · rw [if_neg hge]
    have := dictInsert_length_le s.intensifier_instances
      s.intensifier_instances.length
      (freshSH s.intensifier_instances.length)
    simp only at this ⊢
    omega

/-- **C3.** For a fixed `num_workers`, along every sequence of calls to
`_add_new_instance` the pool size stays at most `num_workers` and never
decreases from one call to the next. -/
theorem pool_size_bounded_monotone (num_workers k : Nat) :
    (runCalls (List.replicate k num_workers)).intensifier_instances.length ≤
      num_workers ∧
    (runCalls (List.replicate k num_workers)).intensifier_instances.length ≤
      (runCalls
        (List.replicate (k + 1) num_workers)).intensifier_instances.length := by
  have hbound : ∀ n,
      (runCalls (List.replicate n num_workers)).intensifier_instances.length ≤
        num_workers := by
    intro n
    induction n with
    | zero => exact Nat.zero_le _
    | succ m ih =>
      rw [List.replicate_succ', runCalls_append_single]
      exact add_new_instance_length_le _ _ ih
  refine ⟨hbound k, ?_⟩
  rw [List.replicate_succ', runCalls_append_single]
  exact length_le_add_new_instance _ _

lemma add_new_instance_take (s : SchedulerState) (num_workers : Nat)
    (h : WellFormed s) :
    (add_new_instance s num_workers).2.intensifier_instances.take
        s.intensifier_instances.length = s.intensifier_instances := by
  by_cases hge : s.intensifier_instances.length ≥ num_workers
  · rw [add_new_instance, if_pos hge]
    exact List.take_length s.intensifier_instances
  · push_neg at hge
    rw [add_new_instance_pool_eq s num_workers h hge]
    exact List.take_left s.intensifier_instances _

/-- **C4.** Along every sequence of calls to `_add_new_instance`, the
pool keys are exactly `0, 1, ..., size - 1` in creation order, and a
later call never overwrites, removes or relocates an existing entry:
the old pool is literally an initial segment of the new one. -/
theorem pool_keys_dense_stable (ws : List Nat) (num_workers : Nat) :
    poolKeys (runCalls ws) =
      List.range (runCalls ws).intensifier_instances.length ∧
    (runCalls (ws ++ [num_workers])).intensifier_instances.take
        (runCalls ws).intensifier_instances.length =
      (runCalls ws).intensifier_instances := by
  refine ⟨wellFormed_runCalls ws, ?_⟩
  rw [runCalls_append_single]
  exact add_new_instance_take _ _ (wellFormed_runCalls ws)

/-- **C5.** `_get_intensifier_ranking` returns the instance's `stage`
attribute as primary key, and primary key `0` for a brand-new instance
that has no `stage` attribute yet. -/
theorem ranking_primary_stage (st : SHState) :
    (∀ v, st.stage? = some v →
      get_intensifier_ranking (AbstractRacer.sh st) =
        some (v, st.run_tracker.length)) ∧
    (st.stage? = none →
      get_intensifier_ranking (AbstractRacer.sh st) =
        some (0, st.run_tracker.length)) := by
  constructor
  · intro v hv
    simp [get_intensifier_ranking, hv]
  · intro hnone
    simp [get_intensifier_ranking, hnone]

theorem ranking_primary_stage_witness :
    get_intensifier_ranking (AbstractRacer.sh
        { identifier := 0, stage? := some 2, run_tracker := [7] }) =
      some (2, 1) ∧
    get_intensifier_ranking (AbstractRacer.sh
        { identifier := 1, stage? := none, run_tracker := [] }) =
      some (0, 0) :=
  ⟨(ranking_primary_stage
      { identifier := 0, stage? := some 2, run_tracker := [7] }).1 2 rfl,
   (ranking_primary_stage
      { identifier := 1, stage? := none, run_tracker := [] }).2 rfl⟩

/-- Modelled from the spec and the source comment: the life of a
`SuccessiveHalving` instance (class not under src/) as the scheduler
observes it.  Dispatching a job appends a record to `run_tracker`;
advancing to the next stage increments `stage` and empties
`run_tracker` (the source comment states that `sh.run_tracker` "is also
emptied each iteration"). -/
inductive SHEvent where
  | dispatch (job : Nat)
  | advanceStage
deriving DecidableEq, Repr

/-- One observable step of a `SuccessiveHalving` instance. -/
def shStep (st : SHState) : SHEvent → SHState
  | SHEvent.dispatch j =>
    { st with run_tracker := st.run_tracker ++ [j] }
  | SHEvent.advanceStage =>
    { st with stage? := some (st.stage?.getD 0 + 1), run_tracker := [] }

/-- An instance after a sequence of observable events. -/
def shRun (st : SHState) (es : List SHEvent) : SHState :=
  es.foldl shStep st

/-- The number of jobs ever dispatched along a sequence of events. -/
def dispatchCount (es : List SHEvent) : Nat :=
  es.countP (fun e =>
    match e with
    | SHEvent.dispatch _ => true
    | SHEvent.advanceStage => false)

/-- **C6, counterexample.** After dispatching two jobs and advancing a
stage, a race instance has dispatched two jobs in total, yet its
secondary ranking key is `0`: the key is `len(run_tracker)`, which the
stage advance empties, so it is neither the count of jobs ever
dispatched nor non-decreasing over the instance's lifetime (it drops
from `2` to `0`). -/
theorem ranking_secondary_drops :
    dispatchCount [SHEvent.dispatch 0, SHEvent.dispatch 1,
      SHEvent.advanceStage] = 2 ∧
    get_intensifier_ranking (AbstractRacer.sh
        (shRun (freshSH 0) [SHEvent.dispatch 0, SHEvent.dispatch 1])) =
      some (0, 2) ∧
    get_intensifier_ranking (AbstractRacer.sh
        (shRun (freshSH 0) [SHEvent.dispatch 0, SHEvent.dispatch 1,
          SHEvent.advanceStage])) =
      some (1, 0) := by
  refine ⟨rfl, rfl, rfl⟩

/-- **C6, amended.** The secondary ranking key equals
`len(run_tracker)`, the number of jobs tracked for the current
iteration: it grows by one with each dispatched job, but it is reset to
`0` when the instance advances a stage, so it is non-decreasing only
within a stage, not over the whole lifetime. -/
theorem ranking_secondary_key (st : SHState) (j : Nat) :
    ((get_intensifier_ranking (AbstractRacer.sh st)).map Prod.snd =
      some st.run_tracker.length) ∧
    (shStep st (SHEvent.dispatch j)).run_tracker.length =
      st.run_tracker.length + 1 ∧
    (shStep st SHEvent.advanceStage).run_tracker.length = 0 := by
  refine ⟨?_, by simp [shStep], by simp [shStep]⟩
  cases h : st.stage? <;> simp [get_intensifier_ranking, h]

/-- Modelled from the spec: the Scheduler ranks all live instances by
the tuple `_get_intensifier_ranking` returns, compared
lexicographically, descending (higher ranks selected first), and breaks
remaining ties by ascending `identifier`.  `precedes x y` holds when
the ranked instance `x = (identifier, (primary, secondary))` is
dispatched before `y`. -/
def precedes (x y : Nat × (Nat × Nat)) : Bool :=
  if x.2.1 = y.2.1 then
    if x.2.2 = y.2.2 then
      decide (x.1 < y.1)
    else
      decide (y.2.2 < x.2.2)
  else
    decide (y.2.1 < x.2.1)

/-- Insert a ranked instance into an already sorted dispatch list. -/
def insertRanked (x : Nat × (Nat × Nat)) :
    List (Nat × (Nat × Nat)) → List (Nat × (Nat × Nat))
  | [] => [x]
  | y :: ys =>
    if precedes x y then x :: y :: ys else y :: insertRanked x ys

/-- Sort ranked instances into dispatch order (best ranked first). -/
def sortRanked : List (Nat × (Nat × Nat)) → List (Nat × (Nat × Nat))
  | [] => []
  | x :: xs => insertRanked x (sortRanked xs)

/-- Modelled from the spec: the scheduler's instance ordering — rank
every pool entry with `_get_intensifier_ranking` and return the
identifiers from best to worst. -/
def sort_instances_by_stage (pool : Pool) : List Nat :=
  (sortRanked (pool.map (fun p => (p.1, rankOf p.2)))).map Prod.fst

/-- The identifier of the instance the scheduler selects first. -/
def selectFirst (pool : Pool) : Option Nat :=
  (sort_instances_by_stage pool).head?

/-- Strict descending lexicographic dominance of one ranking tuple over
another: a strictly larger primary key, or equal primary keys and a
strictly larger secondary key. -/
def lexGt (p q : Nat × Nat) : Prop :=
  q.1 < p.1 ∨ (p.1 = q.1 ∧ q.2 < p.2)

lemma precedes_of_lexGt (ia ib : Nat) (ra rb : Nat × Nat)
    (h : lexGt ra rb) :
    precedes (ia, ra) (ib, rb) = true ∧
    precedes (ib, rb) (ia, ra) = false := by
  rcases h with hlt | ⟨heq, hlt⟩
  · constructor
    · rw [precedes, if_neg (by simp; omega)]
      simp
      omega
    · rw [precedes, if_neg (by simp; omega)]
      simp
      omega
  · constructor
    · rw [precedes, if_pos (by simpa using heq),
        if_neg (by simp; omega)]
      simp
      omega
    · rw [precedes, if_pos (by simp; omega),
        if_neg (by simp; omega)]
      simp
      omega

/-- **C7.** Ranking tuples are compared lexicographically, descending,
with the stage key dominating: whenever one instance's ranking tuple
strictly dominates another's, that instance is selected first,
whichever order the two occupy in the pool. -/
theorem ranking_lex_descending (a b : SHState) (ia ib : Nat)
    (h : lexGt (rankOf a) (rankOf b)) :
    selectFirst [(ia, a), (ib, b)] = some ia ∧
    selectFirst [(ib, b), (ia, a)] = some ia := by
  obtain ⟨hab, hba⟩ := precedes_of_lexGt ia ib (rankOf a) (rankOf b) h
  constructor
  · simp [selectFirst, sort_instances_by_stage, sortRanked, insertRanked,
      hab]
  · simp [selectFirst, sort_instances_by_stage, sortRanked, insertRanked,
      hba]

theorem ranking_lex_descending_witness :
    selectFirst
      [(0, { identifier := 0, stage? := some 2,
             run_tracker := List.range 5 }),
       (1, { identifier := 1, stage? := some 2,
             run_tracker := List.range 7 })] = some 1 ∧
    selectFirst
      [(0, { identifier := 0, stage? := some 3,
             run_tracker := List.range 1 }),
       (1, { identifier := 1, stage? := some 2,
             run_tracker := List.range 100 })] = some 0 :=
  ⟨(ranking_lex_descending
      { identifier := 1, stage? := some 2, run_tracker := List.range 7 }
      { identifier := 0, stage? := some 2, run_tracker := List.range 5 }
      1 0 (by right; exact ⟨rfl, by simp [rankOf]⟩)).2,
   (ranking_lex_descending
      { identifier := 0, stage? := some 3, run_tracker := List.range 1 }
      { identifier := 1, stage? := some 2, run_tracker := List.range 100 }
      0 1 (by left; simp [rankOf])).1⟩

lemma precedes_of_tie (ia ib : Nat) (r : Nat × Nat) (hid : ia < ib) :
    precedes (ia, r) (ib, r) = true ∧
    precedes (ib, r) (ia, r) = false := by
  constructor
  · rw [precedes, if_pos rfl, if_pos rfl]
    simpa using hid
  · rw [precedes, if_pos rfl, if_pos rfl]
    simp
    omega

/-- **C8.** When two instances are tied on both ranking keys, the one
with the smaller identifier is selected first, whichever order the two
occupy in the pool. -/
theorem ranking_tie_identifier (a b : SHState) (ia ib : Nat)
    (hrank : rankOf a = rankOf b) (hid : ia < ib) :
    selectFirst [(ia, a), (ib, b)] = some ia ∧
    selectFirst [(ib, b), (ia, a)] = some ia := by
  have hab' : precedes (ia, rankOf a) (ib, rankOf b) = true := by
    rw [hrank]
    exact (precedes_of_tie ia ib (rankOf b) hid).1
  have hba : precedes (ib, rankOf b) (ia, rankOf a) = false := by
    rw [← hrank]
    exact (precedes_of_tie ia ib (rankOf a) hid).2
  constructor
  · simp [selectFirst, sort_instances_by_stage, sortRanked, insertRanked,
      hab']
  · simp [selectFirst, sort_instances_by_stage, sortRanked, insertRanked,
      hba]

theorem ranking_tie_identifier_witness :
    selectFirst [(0, freshSH 0), (1, freshSH 1)] = some 0 ∧
    selectFirst [(1, freshSH 1), (0, freshSH 0)] = some 0 :=
  ranking_tie_identifier (freshSH 0) (freshSH 1) 0 1 rfl (by omega)

lemma get_intensifier_ranking_sh (st : SHState) :
    get_intensifier_ranking (AbstractRacer.sh st) = some (rankOf st) := by
  cases h : st.stage? <;> simp [get_intensifier_ranking, rankOf, h]

/-- **C9.** `_get_intensifier_ranking` requires a `SuccessiveHalving`
argument: the assertion fails (no ranking is returned) exactly when the
racer is not a `SuccessiveHalving`, and for every `SuccessiveHalving`
argument the assertion passes and a pair of integers is returned. -/
theorem ranking_requires_successive_halving (r : AbstractRacer) :
    (get_intensifier_ranking r = none ↔
      ∀ st, r ≠ AbstractRacer.sh st) ∧
    (∀ st, r = AbstractRacer.sh st →
      get_intensifier_ranking r = some (rankOf st)) := by
  cases r with
  | other =>
    constructor
    · simp [get_intensifier_ranking]
    · intro st hst
      cases hst
  | sh s =>
    constructor
    · rw [get_intensifier_ranking_sh]
      simp
    · intro st hst
      rw [hst]
      exact get_intensifier_ranking_sh st

theorem ranking_requires_successive_halving_witness :
    (get_intensifier_ranking AbstractRacer.other = none ↔
      ∀ st, AbstractRacer.other ≠ AbstractRacer.sh st) ∧
    (∀ st, AbstractRacer.other = AbstractRacer.sh st →
      get_intensifier_ranking AbstractRacer.other = some (rankOf st)) :=
  ranking_requires_successive_halving AbstractRacer.other

/-- `_get_intensifier_ranking` with the scheduler state and the
intensifier threaded explicitly, as a state-passing embedding of the
method call `self._get_intensifier_ranking(intensifier)`: the body only
reads `intensifier.stage` and `intensifier.run_tracker` and assigns
nothing on `self` or on the intensifier, so both states come back
unchanged alongside the result. -/
def get_intensifier_ranking_observed (s : SchedulerState)
    (r : AbstractRacer) :
    Option (Nat × Nat) × SchedulerState × AbstractRacer :=
  (get_intensifier_ranking r, s, r)

/-- **C10.** `_get_intensifier_ranking` is a pure observation: it
leaves the scheduler's pool and the intensifier's state unchanged, and
a second consecutive call on the resulting states returns the same
ranking as the first. -/
theorem ranking_pure_observation (s : SchedulerState) (r : AbstractRacer) :
    (get_intensifier_ranking_observed s r).2.1 = s ∧
    (get_intensifier_ranking_observed s r).2.2 = r ∧
    (get_intensifier_ranking_observed
        (get_intensifier_ranking_observed s r).2.1
        (get_intensifier_ranking_observed s r).2.2).1 =
      (get_intensifier_ranking_observed s r).1 :=
  ⟨rfl, rfl, rfl⟩

end ParallelSH
